import Mathlib

/-!
# Verification of the EduSynth wavetable synthesizer core

Shallow embedding of the voice-rendering engine of `ComplexSynthV7.py`
(phase accumulation in `genSoundData`, the envelope state machine of
`genWave`, the voice pool operations `addNote` / `startDecayNote`, the
wavetable harmonic builder `genHarmonics`, and the tuning model of
`Note.__init__` / `Note.setJustIntonation`), together with theorems
settling the specification's claims about them.

Numeric modelling: the Python code computes with `float32`; here phase
and amplitude arithmetic is embedded over `ℚ` (exact), and the
transcendental frequency formulas (`440 * 2**((pitch-69)/12)`, the
phase constant `2048/π`) over `ℝ`.  `np.round` is round-half-to-even,
`astype(np.uint16)` on a non-negative integral float is reduction
mod 65536, and Python's float `%` is embedded as `x - y*⌊x/y⌋`.
-/

/-- `self.__WAVE_SAMPLES` (`N_SAMPLES` in the spec). -/
def WAVE_SAMPLES : ℕ := 2048

/-- `self.__BLOCKSIZE`. -/
def BLOCKSIZE : ℕ := 512

/-- `self.__SAMPLE_RATE`. -/
def SAMPLE_RATE : ℕ := 48000

/-- `self.__STEPS_PER_CYCLE = np.float32(WAVE_SAMPLES / SAMPLE_RATE)`. -/
def STEPS_PER_CYCLE : ℚ := (WAVE_SAMPLES : ℚ) / (SAMPLE_RATE : ℚ)

/-- `np.round`: round half to even, returning an integer. -/
def npRound (x : ℚ) : ℤ :=
  let f := ⌊x⌋
  let r := x - (f : ℚ)
  if r < 1/2 then f
  else if 1/2 < r then f + 1
  else if f % 2 = 0 then f else f + 1

/-- Python / numpy float `%` for a positive modulus:
`x % y = x - y * floor(x / y)`, the result lies in `[0, y)`. -/
def fmod (x y : ℚ) : ℚ := x - y * (⌊x / y⌋ : ℚ)

/-- The raw (unrounded) phase values of one block:
`np.arange(note.phase_index, end, phase_increment)[:512]`, which for a
positive increment is exactly `phase0 + j*inc` for `j = 0 .. 511`. -/
def phasesRaw (phase0 inc : ℚ) : List ℚ :=
  (List.range BLOCKSIZE).map (fun j => phase0 + (j : ℚ) * inc)

/-- The wavetable indices of one block:
`np.round(phases).astype(np.uint16)` followed by `phases %= WAVE_SAMPLES`. -/
def phaseIdx (phase0 inc : ℚ) : List ℤ :=
  (phasesRaw phase0 inc).map (fun x => (npRound x % 65536) % (WAVE_SAMPLES : ℤ))

/-- `note.phase_index = (phases[-1] + phase_increment) % self.__WAVE_SAMPLES`:
the phase persisted for the next block. -/
def nextPhase (phase0 inc : ℚ) : ℚ :=
  fmod (((phaseIdx phase0 inc).getLastD 0 : ℚ) + inc) (WAVE_SAMPLES : ℚ)

/-- Phase persisted by `genSoundData` for a note at starting phase
`phase0` and (constant, already modulation-adjusted) frequency `freq`:
`phase_increment = note.frequency * self.__STEPS_PER_CYCLE`. -/
def genSoundDataPhase (phase0 freq : ℚ) : ℚ :=
  nextPhase phase0 (freq * STEPS_PER_CYCLE)

/-- Wavetable indices sampled by `genSoundData` over one block. -/
def genSoundDataIdx (phase0 freq : ℚ) : List ℤ :=
  phaseIdx phase0 (freq * STEPS_PER_CYCLE)

theorem npRound_sub_le (x : ℚ) : |(npRound x : ℚ) - x| ≤ 1/2 := by
  unfold npRound
  set f := ⌊x⌋ with hf
  have h0 : (f : ℚ) ≤ x := Int.floor_le x
  have h1 : x < (f : ℚ) + 1 := Int.lt_floor_add_one x
  by_cases hlt : x - (f : ℚ) < 1/2
  · simp only [hlt, if_true]
    rw [abs_le]
    constructor <;> linarith
  · simp only [hlt, if_false]
    by_cases hgt : 1/2 < x - (f : ℚ)
    · simp only [hgt, if_true]
      rw [abs_le]
      push_cast
      constructor <;> linarith
    · have heq : x - (f : ℚ) = 1/2 := le_antisymm (not_lt.mp hgt) (not_lt.mp hlt)
      simp only [hgt, if_false]
      by_cases hev : f % 2 = 0
      · simp only [hev, if_true]
        rw [abs_le]
        constructor <;> linarith
      · simp only [hev, if_false]
        rw [abs_le]
        push_cast
        constructor <;> linarith

theorem fmod_nonneg (x : ℚ) {y : ℚ} (hy : 0 < y) : 0 ≤ fmod x y := by
  unfold fmod
  have h := Int.floor_le (x / y)
  have : y * (⌊x / y⌋ : ℚ) ≤ y * (x / y) := by
    exact mul_le_mul_of_nonneg_left h (le_of_lt hy)
  rw [mul_div_cancel₀ x (ne_of_gt hy)] at this
  linarith

theorem fmod_lt (x : ℚ) {y : ℚ} (hy : 0 < y) : fmod x y < y := by
  unfold fmod
  have h := Int.lt_floor_add_one (x / y)
  have : y * (x / y) < y * ((⌊x / y⌋ : ℚ) + 1) :=
    mul_lt_mul_of_pos_left h hy
  rw [mul_div_cancel₀ x (ne_of_gt hy)] at this
  nlinarith

set_option maxRecDepth 8000

theorem phasesRaw_getLast :
    ∀ phase0 inc : ℚ, (phasesRaw phase0 inc).getLastD 0 = phase0 + 511 * inc := by
  intro phase0 inc
  rfl

theorem phaseIdx_getLast (phase0 inc : ℚ) :
    (phaseIdx phase0 inc).getLastD 0 =
      (npRound (phase0 + 511 * inc) % 65536) % (WAVE_SAMPLES : ℤ) := by
  rfl

/-- The persisted phase in closed form: the rounded, `uint16`-cast and
wrapped final index of the block, plus one increment, mod `WAVE_SAMPLES`. -/
theorem nextPhase_eq (phase0 inc : ℚ) :
    nextPhase phase0 inc =
      fmod (((npRound (phase0 + 511 * inc) % 65536) % (WAVE_SAMPLES : ℤ) : ℤ) + inc)
        (WAVE_SAMPLES : ℚ) := by
  unfold nextPhase
  rw [phaseIdx_getLast]

/-- Scratch check of the closed form at the counterexample input:
`inc = 440 * 2048/48000 = 1408/75`. -/
theorem inc_440 : (440 : ℚ) * STEPS_PER_CYCLE = 1408/75 := by
  norm_num [STEPS_PER_CYCLE, WAVE_SAMPLES, SAMPLE_RATE]

/-- **C1 counterexample.** At starting phase `0` and frequency `440` Hz, the
phase persisted by `genSoundData` is NOT the unrounded float phase
accumulated through the block plus one increment mod `WAVE_SAMPLES`:
the code rounds and wraps `phases[-1]` before persisting, losing the
fractional part of the accumulated phase (here `13/75`). -/
theorem genSoundDataPhase_not_unrounded :
    genSoundDataPhase 0 440 ≠
      fmod (0 + 512 * (440 * STEPS_PER_CYCLE)) (WAVE_SAMPLES : ℚ) := by
  rw [genSoundDataPhase, nextPhase_eq, inc_440]
  have h1 : (0 : ℚ) + 511 * (1408/75) = 719488/75 := by norm_num
  have h2 : npRound (719488/75) = 9593 := by
    unfold npRound
    norm_num
  rw [h1, h2]
  unfold fmod
  norm_num [WAVE_SAMPLES]

/-- **C1 (amended).** For a voice at non-negative starting phase and
constant positive frequency, the phase persisted by `genSoundData` equals
the *rounded and wrapped* integer index of the block's last sample plus
one increment, mod `WAVE_SAMPLES`; the rounded value can differ from the
unrounded accumulated phase by up to `1/2`, so the continuous float phase
does not carry over exactly. -/
theorem genSoundDataPhase_rounded (phase0 freq : ℚ)
    (hp : 0 ≤ phase0) (hf : 0 < freq) :
    genSoundDataPhase phase0 freq =
      fmod (((npRound (phase0 + 511 * (freq * STEPS_PER_CYCLE)) % (WAVE_SAMPLES : ℤ) : ℤ) : ℚ)
          + freq * STEPS_PER_CYCLE) (WAVE_SAMPLES : ℚ) ∧
    |(npRound (phase0 + 511 * (freq * STEPS_PER_CYCLE)) : ℚ)
        - (phase0 + 511 * (freq * STEPS_PER_CYCLE))| ≤ 1/2 := by
  constructor
  · rw [genSoundDataPhase, nextPhase_eq]
    rw [Int.emod_emod_of_dvd _ (by norm_num [WAVE_SAMPLES] : (WAVE_SAMPLES : ℤ) ∣ 65536)]
  · exact npRound_sub_le _

/-- Witness for `genSoundDataPhase_rounded` at phase `0`, frequency `440`. -/
theorem genSoundDataPhase_rounded_witness :
    genSoundDataPhase 0 440 =
      fmod (((npRound (0 + 511 * (440 * STEPS_PER_CYCLE)) % (WAVE_SAMPLES : ℤ) : ℤ) : ℚ)
          + 440 * STEPS_PER_CYCLE) (WAVE_SAMPLES : ℚ) ∧
    |(npRound (0 + 511 * (440 * STEPS_PER_CYCLE)) : ℚ)
        - (0 + 511 * (440 * STEPS_PER_CYCLE))| ≤ 1/2 :=
  genSoundDataPhase_rounded 0 440 (by norm_num) (by norm_num)

/-- **C2.** For a voice at non-negative starting phase and constant
positive frequency, every wavetable index produced for one block of
`genSoundData` lies in `[0, WAVE_SAMPLES)`, and the phase stored for the
next block also lies in `[0, WAVE_SAMPLES)`. -/
theorem genSoundData_indices_in_bounds (phase0 freq : ℚ)
    (hp : 0 ≤ phase0) (hf : 0 < freq) :
    (∀ i ∈ genSoundDataIdx phase0 freq, 0 ≤ i ∧ i < (WAVE_SAMPLES : ℤ)) ∧
    0 ≤ genSoundDataPhase phase0 freq ∧
    genSoundDataPhase phase0 freq < (WAVE_SAMPLES : ℚ) := by
  refine ⟨?_, ?_, ?_⟩
  · intro i hi
    rw [genSoundDataIdx, phaseIdx, List.mem_map] at hi
    obtain ⟨x, _, rfl⟩ := hi
    exact ⟨Int.emod_nonneg _ (by norm_num [WAVE_SAMPLES]),
      Int.emod_lt_of_pos _ (by norm_num [WAVE_SAMPLES])⟩
  · exact fmod_nonneg _ (by norm_num [WAVE_SAMPLES])
  · exact fmod_lt _ (by norm_num [WAVE_SAMPLES])

/-- Witness for `genSoundData_indices_in_bounds` at phase `0`,
frequency `440`. -/
theorem genSoundData_indices_in_bounds_witness :
    (∀ i ∈ genSoundDataIdx 0 440, 0 ≤ i ∧ i < (WAVE_SAMPLES : ℤ)) ∧
    0 ≤ genSoundDataPhase 0 440 ∧
    genSoundDataPhase 0 440 < (WAVE_SAMPLES : ℚ) :=
  genSoundData_indices_in_bounds 0 440 (by norm_num) (by norm_num)

/-- `NoteStates` from the source. -/
inductive NoteStates where
  | NULL
  | OFF
  | ATTACK
  | ON
  | DECAY
  deriving DecidableEq

/-- The envelope-relevant fields of a `Note`: its `state` and its
`profile_phase_index`. -/
structure EnvState where
  state : NoteStates
  profileIdx : ℕ
  deriving DecidableEq

/-- One rendered block of `genWave` as it acts on a note's envelope
state.  `OFF` returns zeros without touching the state; `DECAY` deletes
the note (the slot becomes a fresh `NULL` note, index `0`) once its
`profile_phase_index` reaches `DecayCycles`, else advances the index;
`ATTACK` transitions to `ON` once the index reaches `AttackCycles`, else
advances; `ON` is unchanged; `NULL` notes are skipped by `runStream`. -/
def genWaveStep (attackCycles decayCycles : ℕ) (s : EnvState) : EnvState :=
  match s.state with
  | .OFF => s
  | .DECAY =>
      if decayCycles ≤ s.profileIdx then ⟨.NULL, 0⟩
      else ⟨.DECAY, s.profileIdx + 1⟩
  | .ATTACK =>
      if attackCycles ≤ s.profileIdx then ⟨.ON, 0⟩
      else ⟨.ATTACK, s.profileIdx + 1⟩
  | .ON => s
  | .NULL => s

/-- `Note.__init__` with a non-`NULL` state starts in `ATTACK` with
`profile_phase_index = 0`. -/
def noteOnEnv : EnvState := ⟨.ATTACK, 0⟩

/-- `startDecayNote` on a matching voice: `note.state = NoteStates.DECAY`,
the `profile_phase_index` is left where it was. -/
def startDecayEnv (s : EnvState) : EnvState := ⟨.DECAY, s.profileIdx⟩

/-- **C5 counterexample.** With `decayCycles = 2` and a note-off arriving
immediately after note-on (envelope position `0`), the voice has NOT
reached Idle after exactly `decayCycles = 2` further blocks — it is still
in `DECAY`; it reaches Idle only after `3` blocks. -/
theorem decay_not_exactly_decayCycles :
    ((genWaveStep 5 2)^[2] (startDecayEnv noteOnEnv)).state ≠ NoteStates.NULL ∧
    (genWaveStep 5 2)^[3] (startDecayEnv noteOnEnv) = ⟨NoteStates.NULL, 0⟩ := by
  decide

/-- **C5 (amended).** A voice that receives note-on and then note-off
while still in Attack (at envelope position `p ≤ attackCycles`, with
`p ≤ decayCycles`) transitions directly from Attack to Decay without ever
entering `ON`, and reaches `NULL` after exactly `decayCycles - p + 1`
further rendered blocks: up to and including block `decayCycles - p` it
is still in `DECAY`, and the `decayCycles - p + 1`-st block deletes it. -/
theorem attack_noteOff_reaches_idle (A D p : ℕ) (hpA : p ≤ A) (hpD : p ≤ D) :
    (∀ j, j ≤ A → (genWaveStep A D)^[j] noteOnEnv = ⟨.ATTACK, j⟩) ∧
    startDecayEnv ⟨.ATTACK, p⟩ = ⟨.DECAY, p⟩ ∧
    (∀ k, k ≤ D - p → (genWaveStep A D)^[k] ⟨.DECAY, p⟩ = ⟨.DECAY, p + k⟩) ∧
    (genWaveStep A D)^[D - p + 1] ⟨.DECAY, p⟩ = ⟨.NULL, 0⟩ := by
  have hdec : ∀ k, k ≤ D - p → (genWaveStep A D)^[k] ⟨.DECAY, p⟩ = ⟨.DECAY, p + k⟩ := by
    intro k
    induction k with
    | zero => intro _; simp
    | succ n ih =>
        intro hn
        rw [Function.iterate_succ_apply', ih (Nat.le_of_succ_le hn)]
        have hlt : p + n < D := by omega
        simp [genWaveStep, Nat.not_le.mpr hlt]
        omega
  refine ⟨?_, rfl, hdec, ?_⟩
  · intro j
    induction j with
    | zero => intro _; simp [noteOnEnv]
    | succ n ih =>
        intro hn
        rw [Function.iterate_succ_apply', ih (Nat.le_of_succ_le hn)]
        have hlt : n < A := hn
        simp [genWaveStep, Nat.not_le.mpr hlt]
  · rw [Function.iterate_succ_apply', hdec (D - p) (le_refl _)]
    have : p + (D - p) = D := by omega
    rw [this]
    simp [genWaveStep]

/-- Witness for `attack_noteOff_reaches_idle` at `attackCycles = 5`,
`decayCycles = 10`, note-off at envelope position `0`. -/
theorem attack_noteOff_reaches_idle_witness :
    (∀ j, j ≤ 5 → (genWaveStep 5 10)^[j] noteOnEnv = ⟨.ATTACK, j⟩) ∧
    startDecayEnv ⟨.ATTACK, 0⟩ = ⟨.DECAY, 0⟩ ∧
    (∀ k, k ≤ 10 - 0 → (genWaveStep 5 10)^[k] ⟨.DECAY, 0⟩ = ⟨.DECAY, 0 + k⟩) ∧
    (genWaveStep 5 10)^[10 - 0 + 1] ⟨.DECAY, 0⟩ = ⟨.NULL, 0⟩ :=
  attack_noteOff_reaches_idle 5 10 0 (Nat.zero_le _) (Nat.zero_le _)

/-- `freqVolumeAdjust`: per-octave loudness table. -/
def freqVolumeAdjust : List ℚ :=
  [3.5, 3.5, 2.5, 1.8, 1.2, 1, 0.5, 0.4, 0.4, 0.3, 0.2]

/-- `freqRandomAdjust`: per-octave max detune randomness table. -/
def freqRandomAdjust : List ℚ :=
  [0.8, 0.8, 0.8, 0.6, 0.4, 0.3, 0.2, 0.1, 0, 0, 0]

/-- `justRatios`: the fixed 12-entry just-intonation ratio table. -/
def justRatios : List ℚ :=
  [1, 16/15, 9/8, 6/5, 5/4, 4/3, 45/32, 3/2, 8/5, 5/3, 7/4, 15/8]

/-- Equal-temperament frequency, `440 * 2**((pitch - 69) / 12)`. -/
noncomputable def equalTempFreq (pitch : ℕ) : ℝ :=
  440 * (2 : ℝ) ^ (((pitch : ℝ) - 69) / 12)

/-- `Note.__init__` frequency:
`440 * 2**((pitch-69)/12) + self.randFreqAdjust()`, where
`randFreqAdjust` is `random.uniform(0, freqRandomAdjust[octave]) * randLvl`;
the random draw is modelled by the parameter `u`. -/
noncomputable def noteInitFrequency (pitch : ℕ) (u randLvl : ℝ) : ℝ :=
  equalTempFreq pitch + u * randLvl

/-- `setJustRoot`: `pitch += 60; justRootFreq = 440 * 2**((pitch-69)/12)`. -/
noncomputable def justRootFreqOf (pitch : ℤ) : ℝ :=
  440 * (2 : ℝ) ^ ((((pitch : ℝ) + 60) - 69) / 12)

/-- `interval = self.pitch % 12 - rootPitch` in `setJustIntonation`. -/
def justInterval (pitch : ℕ) (rootPitch : ℤ) : ℤ :=
  (pitch : ℤ) % 12 - rootPitch

/-- `octave = (self.pitch - rootPitch) // 12 - 5` (Python floor division). -/
def justOctaveRaw (pitch : ℕ) (rootPitch : ℤ) : ℤ :=
  Int.fdiv ((pitch : ℤ) - rootPitch) 12 - 5

/-- The octave factor of `setJustIntonation`: `1` at offset `0`,
`0.5**abs(octave)` below, `2**octave` above. -/
noncomputable def justOctaveFactor (o : ℤ) : ℝ :=
  if o = 0 then 1
  else if o < 0 then (1/2 : ℝ) ^ o.natAbs
  else (2 : ℝ) ^ o.natAbs

/-- `Note.setJustIntonation`:
`rootFreq * justRatios[interval] * octave + randFreqAdjust()`.
A negative Python/numpy index `interval` wraps from the end of the
12-entry table, i.e. the lookup index is `interval % 12` for
`-12 ≤ interval < 12`; the random draw is modelled by `u`. -/
noncomputable def setJustIntonationFreq (pitch : ℕ) (rootFreq : ℝ) (rootPitch : ℤ)
    (u randLvl : ℝ) : ℝ :=
  rootFreq * ((justRatios.getD (justInterval pitch rootPitch % 12).toNat 0 : ℚ) : ℝ)
      * justOctaveFactor (justOctaveRaw pitch rootPitch) + u * randLvl

/-- The fields of a `Note` touched by the voice-pool operations
(`frequency` stands for `init_frequency`). -/
structure Note where
  state : NoteStates
  pitch : ℕ
  frequency : ℝ
  volume : ℝ
  phase : ℝ
  profileIdx : ℕ

/-- `Note.initNull`: the placeholder note of an empty slot. -/
def nullNote : Note :=
  { state := .NULL, pitch := 0, frequency := 0, volume := 0, phase := 0, profileIdx := 0 }

/-- The note built inside `addNote`: `Note(pitch, velocity, randLvl)`,
then `setJustIntonation(justRootFreq, justRootPitch)` when just
intonation is enabled, then `setPhase(self.__WAVE_SAMPLES/np.pi)`.
The two random draws are modelled by `u` (equal-temperament detune) and
`u'` (the draw inside `setJustIntonation`). -/
noncomputable def mkNote (just : Bool) (rootFreq : ℝ) (rootPitch : ℤ) (randLvl : ℝ)
    (pitch : ℕ) (velocity : ℝ) (u u' : ℝ) : Note :=
  { state := .ATTACK
    pitch := pitch
    frequency :=
      if just then setJustIntonationFreq pitch rootFreq rootPitch u' randLvl
      else noteInitFrequency pitch u randLvl
    volume := velocity * ((freqVolumeAdjust.getD (pitch / 12) 0 : ℚ) : ℝ)
    phase := (WAVE_SAMPLES : ℝ) / Real.pi
    profileIdx := 0 }

/-- The slot loop of `addNote`: the first `NULL` slot (while `noteAdded`
is still false) receives the new note; later `NULL` slots are untouched;
every non-`NULL` slot gets `setPhase(0)`.  The new note is passed in
already built — its construction in the source is deterministic given
the random draws, so hoisting it out of the loop is sound. -/
def addNoteAux (newNote : Note) : Bool → List Note → List Note
  | _, [] => []
  | added, n :: rest =>
      if n.state = NoteStates.NULL then
        if added then n :: addNoteAux newNote added rest
        else newNote :: addNoteAux newNote true rest
      else { n with phase := 0 } :: addNoteAux newNote added rest

/-- `SynthGenerator.addNote` acting on the `__activeNotes` list. -/
def addNote (newNote : Note) (notes : List Note) : List Note :=
  addNoteAux newNote false notes

/-- `SynthGenerator.startDecayNote`: every non-`NULL` note whose pitch
matches is set to `DECAY` (the loop has no early exit). -/
def startDecayNote (pitch : ℕ) (notes : List Note) : List Note :=
  notes.map (fun n =>
    if n.state ≠ NoteStates.NULL ∧ n.pitch = pitch
    then { n with state := NoteStates.DECAY } else n)

theorem addNoteAux_get_nonnull (newN : Note) :
    ∀ (notes : List Note) (added : Bool) (i : ℕ) (hi : i < notes.length),
      (notes.get ⟨i, hi⟩).state ≠ NoteStates.NULL →
      (addNoteAux newN added notes).get? i = some { notes.get ⟨i, hi⟩ with phase := 0 } := by
  intro notes
  induction notes with
  | nil => intro added i hi; simp at hi
  | cons n rest ih =>
      intro added i hi hstate
      cases i with
      | zero =>
          have hn : n.state ≠ NoteStates.NULL := hstate
          simp [addNoteAux, hn]
      | succ j =>
          have hj : j < rest.length := Nat.lt_of_succ_lt_succ hi
          have hstate' : (rest.get ⟨j, hj⟩).state ≠ NoteStates.NULL := hstate
          by_cases hn : n.state = NoteStates.NULL
          · cases added with
            | true => simpa [addNoteAux, hn] using ih true j hj hstate'
            | false => simpa [addNoteAux, hn] using ih true j hj hstate'
          · simpa [addNoteAux, hn] using ih added j hj hstate'

theorem addNoteAux_get_first_null (newN : Note) :
    ∀ (notes : List Note) (i : ℕ) (hi : i < notes.length),
      (notes.get ⟨i, hi⟩).state = NoteStates.NULL →
      (∀ j (hj : j < i), (notes.get ⟨j, Nat.lt_trans hj hi⟩).state ≠ NoteStates.NULL) →
      (addNoteAux newN false notes).get? i = some newN := by
  intro notes
  induction notes with
  | nil => intro i hi; simp at hi
  | cons n rest ih =>
      intro i hi hstate hpre
      cases i with
      | zero =>
          have hn : n.state = NoteStates.NULL := hstate
          simp [addNoteAux, hn]
      | succ j =>
          have hj : j < rest.length := Nat.lt_of_succ_lt_succ hi
          have hn : n.state ≠ NoteStates.NULL := hpre 0 (Nat.succ_pos j)
          have hstate' : (rest.get ⟨j, hj⟩).state = NoteStates.NULL := hstate
          have hpre' : ∀ k (hk : k < j),
              (rest.get ⟨k, Nat.lt_trans hk hj⟩).state ≠ NoteStates.NULL := by
            intro k hk
            exact hpre (k + 1) (Nat.succ_lt_succ hk)
          simpa [addNoteAux, hn] using ih j hj hstate' hpre'

/-- **C10.** Every call to `addNote` resets the wavetable phase of every
already-active (non-`NULL`) voice to `0` — also when a free slot exists —
and the newly created voice (placed in the first `NULL` slot) always
starts at the fixed phase `WAVE_SAMPLES / π`, independent of the other
notes. -/
theorem addNote_resets_phases (just : Bool) (rootFreq : ℝ) (rootPitch : ℤ)
    (randLvl : ℝ) (pitch : ℕ) (velocity u u' : ℝ) (notes : List Note) :
    (mkNote just rootFreq rootPitch randLvl pitch velocity u u').phase
        = (WAVE_SAMPLES : ℝ) / Real.pi ∧
    (∀ i (hi : i < notes.length), (notes.get ⟨i, hi⟩).state ≠ NoteStates.NULL →
        (addNote (mkNote just rootFreq rootPitch randLvl pitch velocity u u') notes).get? i
          = some { notes.get ⟨i, hi⟩ with phase := 0 }) ∧
    (∀ i (hi : i < notes.length), (notes.get ⟨i, hi⟩).state = NoteStates.NULL →
        (∀ j (hj : j < i), (notes.get ⟨j, Nat.lt_trans hj hi⟩).state ≠ NoteStates.NULL) →
        (addNote (mkNote just rootFreq rootPitch randLvl pitch velocity u u') notes).get? i
          = some (mkNote just rootFreq rootPitch randLvl pitch velocity u u')) := by
  refine ⟨rfl, ?_, ?_⟩
  · intro i hi h
    exact addNoteAux_get_nonnull _ notes false i hi h
  · intro i hi h hpre
    exact addNoteAux_get_first_null _ notes i hi h hpre

/-- A sounding note used in concrete pool states. -/
def activeNote : Note :=
  { state := .ON, pitch := 60, frequency := 440, volume := 1, phase := 5, profileIdx := 0 }

/-- A concrete full pool: all 10 slots occupied. -/
def fullPool : List Note := List.replicate 10 activeNote

/-- Witness for `addNote_resets_phases` on the pool `[activeNote, nullNote]`. -/
theorem addNote_resets_phases_witness :
    (mkNote false 0 0 0 62 1 0 0).phase = (WAVE_SAMPLES : ℝ) / Real.pi ∧
    (addNote (mkNote false 0 0 0 62 1 0 0) [activeNote, nullNote]).get? 0
      = some { activeNote with phase := 0 } ∧
    (addNote (mkNote false 0 0 0 62 1 0 0) [activeNote, nullNote]).get? 1
      = some (mkNote false 0 0 0 62 1 0 0) := by
  have h := addNote_resets_phases false 0 0 0 62 1 0 0 [activeNote, nullNote]
  have hi0 : (0 : ℕ) < ([activeNote, nullNote] : List Note).length := by norm_num
  have hi1 : (1 : ℕ) < ([activeNote, nullNote] : List Note).length := by norm_num
  refine ⟨h.1, ?_, ?_⟩
  · exact h.2.1 0 hi0 (show activeNote.state ≠ NoteStates.NULL by decide)
  · exact h.2.2 1 hi1 (show nullNote.state = NoteStates.NULL by decide)
      (fun j hj => by
        have hj0 : j = 0 := Nat.lt_one_iff.mp hj
        subst hj0
        exact show activeNote.state ≠ NoteStates.NULL by decide)

/-- A new note as `addNote` would build it (pitch 62, velocity 1,
equal temperament, no detune). -/
noncomputable def someNewNote : Note := mkNote false 0 0 0 62 1 0 0

/-- **C4 counterexample.** On a pool whose 10 slots are all occupied
(each with phase `5`), `addNote` does NOT leave the pool unchanged: the
slot loop still executes `setPhase(0)` on every occupied slot. -/
theorem addNote_full_pool_changes_pool :
    addNote someNewNote fullPool ≠ fullPool := by
  intro h
  have h0 : (addNote someNewNote fullPool).head? = fullPool.head? := by rw [h]
  have e1 : (addNote someNewNote fullPool).head? = some { activeNote with phase := 0 } := rfl
  have e2 : fullPool.head? = some activeNote := rfl
  rw [e1, e2] at h0
  have h1 : ({ activeNote with phase := 0 } : Note).phase = activeNote.phase := by
    rw [Option.some.inj h0]
  have h2 : (0 : ℝ) = 5 := h1
  norm_num at h2

/-- **C4 (amended).** When no slot is in the `NULL` state, `addNote`
adds no voice and modifies no voice's state, pitch, frequency or volume,
but it does set every voice's `phase_index` to `0`. -/
theorem addNote_full_pool_zeroes_phases (newN : Note) (notes : List Note)
    (h : ∀ n ∈ notes, n.state ≠ NoteStates.NULL) :
    addNote newN notes = notes.map (fun n => { n with phase := 0 }) := by
  unfold addNote
  induction notes with
  | nil => rfl
  | cons n rest ih =>
      have hn : n.state ≠ NoteStates.NULL := h n (List.mem_cons_self n rest)
      have hrest : ∀ m ∈ rest, m.state ≠ NoteStates.NULL :=
        fun m hm => h m (List.mem_cons_of_mem n hm)
      simp [addNoteAux, hn, ih hrest]

/-- Witness for `addNote_full_pool_zeroes_phases` on the concrete full pool. -/
theorem addNote_full_pool_zeroes_phases_witness :
    addNote someNewNote fullPool = fullPool.map (fun n => { n with phase := 0 }) :=
  addNote_full_pool_zeroes_phases someNewNote fullPool
    (by
      intro n hn
      have he : n = activeNote := by simpa [fullPool] using hn
      rw [he]
      exact show activeNote.state ≠ NoteStates.NULL by decide)

/-- A voice in Attack at pitch 60, as used in concrete pool states. -/
def attackNote : Note :=
  { state := .ATTACK, pitch := 60, frequency := 440, volume := 1, phase := 0, profileIdx := 0 }

/-- A pool in which two voices share pitch 60. -/
def sharedPitchPool : List Note := attackNote :: attackNote :: List.replicate 8 nullNote

/-- **C3 counterexample.** With two non-`NULL` voices sharing pitch 60,
`startDecayNote 60` also moves the *second* match to `DECAY` (the loop
has no early exit), so it does not leave every voice after the first
match unchanged. -/
theorem startDecayNote_changes_second_match :
    (startDecayNote 60 sharedPitchPool).get? 1
        = some { attackNote with state := NoteStates.DECAY } ∧
    sharedPitchPool.get? 1 = some attackNote ∧
    attackNote.state = NoteStates.ATTACK ∧
    NoteStates.DECAY ≠ NoteStates.ATTACK := by
  refine ⟨rfl, rfl, rfl, by decide⟩

/-- **C3 (amended).** `startDecayNote pitch` moves *every* non-`NULL`
voice whose pitch matches to `DECAY` (not only the first match in slot
order) and leaves every other voice unchanged. -/
theorem startDecayNote_decays_all_matches (pitch : ℕ) (notes : List Note)
    (i : ℕ) (hi : i < notes.length) :
    ((notes.get ⟨i, hi⟩).state ≠ NoteStates.NULL ∧ (notes.get ⟨i, hi⟩).pitch = pitch →
      (startDecayNote pitch notes).get? i
        = some { notes.get ⟨i, hi⟩ with state := NoteStates.DECAY }) ∧
    (¬ ((notes.get ⟨i, hi⟩).state ≠ NoteStates.NULL ∧ (notes.get ⟨i, hi⟩).pitch = pitch) →
      (startDecayNote pitch notes).get? i = some (notes.get ⟨i, hi⟩)) := by
  have hg : (startDecayNote pitch notes).get? i =
      some (if (notes.get ⟨i, hi⟩).state ≠ NoteStates.NULL ∧ (notes.get ⟨i, hi⟩).pitch = pitch
            then { notes.get ⟨i, hi⟩ with state := NoteStates.DECAY }
            else notes.get ⟨i, hi⟩) := by
    rw [startDecayNote, List.get?_map, List.get?_eq_get hi]
    rfl
  constructor
  · intro h
    rw [hg, if_pos h]
  · intro h
    rw [hg, if_neg h]

/-- Witness for `startDecayNote_decays_all_matches` at slot 1 of the
shared-pitch pool. -/
theorem startDecayNote_decays_all_matches_witness :
    (startDecayNote 60 sharedPitchPool).get? 1
      = some { attackNote with state := NoteStates.DECAY } := by
  have hi : (1 : ℕ) < sharedPitchPool.length := by decide
  exact (startDecayNote_decays_all_matches 60 sharedPitchPool 1 hi).1
    (show attackNote.state ≠ NoteStates.NULL ∧ attackNote.pitch = 60 by decide)

/-- `data[::n]`: every `n`-th element of `data`, starting at index 0;
the length is `⌈len/n⌉`. -/
def subsample (n : ℕ) (l : List ℚ) : List ℚ :=
  (List.range ((l.length + (n - 1)) / n)).map (fun k => l.getD (k * n) 0)

/-- `np.tile(l, n)`: `l` repeated `n` times. -/
def tile (n : ℕ) (l : List ℚ) : List ℚ :=
  (List.replicate n l).join

/-- One harmonic partial of `genHarmonics` at stride `n`:
`partData = data[::n] / (n*2)`, tiled `n` times, truncated to
`WAVE_SAMPLES`. -/
def harmonicPartial (n : ℕ) (data : List ℚ) : List ℚ :=
  (tile n ((subsample n data).map (fun x => x / ((n : ℚ) * 2)))).take WAVE_SAMPLES

/-- `SynthGenerator.genHarmonics`: for `i in range(numHarmonics)`,
`n = i + 2`, and the partial is summed into the running table
(`newData += partData`, elementwise). -/
def genHarmonics (numHarmonics : ℕ) (data : List ℚ) : List ℚ :=
  (List.range numHarmonics).foldl
    (fun newData i => newData.zipWith (· + ·) (harmonicPartial (i + 2) data)) data

/-- The wavetable claimed by the specification sentence: for harmonic
index `i` from 1 to `harmonicCount`, a partial at stride `i + 2`
attenuated by `1/(2*(i+2))` is summed in (so strides `3..harmonicCount+2`). -/
def genHarmonicsClaim (numHarmonics : ℕ) (data : List ℚ) : List ℚ :=
  (List.range numHarmonics).foldl
    (fun newData i => newData.zipWith (· + ·) (harmonicPartial ((i + 1) + 2) data)) data

/-- The wavetable as the amended sentence describes it: for harmonic
index `i` from 1 to `harmonicCount`, a partial at stride `i + 1`
attenuated by `1/(2*(i+1))` is summed in (strides `2..harmonicCount+1`). -/
def genHarmonicsAmended (numHarmonics : ℕ) (data : List ℚ) : List ℚ :=
  ((List.range numHarmonics).map (fun i => i + 1)).foldl
    (fun newData i => newData.zipWith (· + ·) (harmonicPartial (i + 1) data)) data

/-- A concrete base table: `1` followed by 2047 zeros. -/
def harmonicCexData : List ℚ := 1 :: List.replicate 2047 0


theorem head?_take {α : Type} (k : ℕ) (hk : 0 < k) (l : List α) :
    (l.take k).head? = l.head? := by
  cases l with
  | nil => simp
  | cons a t =>
      obtain ⟨m, rfl⟩ : ∃ m, k = m + 1 := ⟨k - 1, by omega⟩
      simp

theorem head?_tile (n : ℕ) (hn : 0 < n) (x : ℚ) (l : List ℚ) :
    (tile n (x :: l)).head? = some x := by
  obtain ⟨m, rfl⟩ : ∃ m, n = m + 1 := ⟨n - 1, by omega⟩
  simp [tile, List.replicate_succ]

theorem subsample_head? (n : ℕ) (hn : 0 < n) (x : ℚ) (l : List ℚ) :
    (subsample n (x :: l)).head? = some x := by
  unfold subsample
  have hm : 0 < ((x :: l).length + (n - 1)) / n := by
    apply Nat.div_pos
    · simp [List.length_cons]
      omega
    · exact hn
  obtain ⟨m, hm'⟩ : ∃ m, ((x :: l).length + (n - 1)) / n = m + 1 :=
    ⟨((x :: l).length + (n - 1)) / n - 1, by omega⟩
  rw [hm', List.range_succ_eq_map]
  simp

theorem harmonicPartial_head? (n : ℕ) (hn : 0 < n) (x : ℚ) (l : List ℚ) :
    (harmonicPartial n (x :: l)).head? = some (x / ((n : ℚ) * 2)) := by
  unfold harmonicPartial
  have hsub := subsample_head? n hn x l
  cases hs : subsample n (x :: l) with
  | nil => rw [hs] at hsub; simp at hsub
  | cons a t =>
      rw [hs] at hsub
      simp only [List.head?_cons, Option.some.injEq] at hsub
      subst hsub
      rw [List.map_cons, head?_take WAVE_SAMPLES (by norm_num [WAVE_SAMPLES]) _,
        head?_tile n hn]

theorem genHarmonics_one_head (x : ℚ) (l : List ℚ) :
    (genHarmonics 1 (x :: l)).head? = some (x + x / 4) := by
  have h1 : genHarmonics 1 (x :: l)
      = (x :: l).zipWith (· + ·) (harmonicPartial 2 (x :: l)) := rfl
  rw [h1]
  have hp := harmonicPartial_head? 2 (by norm_num) x l
  cases hs : harmonicPartial 2 (x :: l) with
  | nil => rw [hs] at hp; simp at hp
  | cons b t =>
      rw [hs] at hp
      simp only [List.head?_cons, Option.some.injEq] at hp
      subst hp
      norm_num [List.zipWith]

theorem genHarmonicsClaim_one_head (x : ℚ) (l : List ℚ) :
    (genHarmonicsClaim 1 (x :: l)).head? = some (x + x / 6) := by
  have h1 : genHarmonicsClaim 1 (x :: l)
      = (x :: l).zipWith (· + ·) (harmonicPartial 3 (x :: l)) := rfl
  rw [h1]
  have hp := harmonicPartial_head? 3 (by norm_num) x l
  cases hs : harmonicPartial 3 (x :: l) with
  | nil => rw [hs] at hp; simp at hp
  | cons b t =>
      rw [hs] at hp
      simp only [List.head?_cons, Option.some.injEq] at hp
      subst hp
      norm_num [List.zipWith]

/-- **C6 counterexample.** With `harmonicCount = 1`, the table built by
`genHarmonics` has first sample `1 + 1/4` (stride 2, attenuation `1/4`),
while the claim's formula (stride `i+2` for harmonic index `i = 1`, i.e.
stride 3 and attenuation `1/6`) gives `1 + 1/6`: the claimed stride is
off by one. -/
theorem genHarmonics_stride_counterexample :
    (genHarmonics 1 harmonicCexData).head? = some (5/4) ∧
    (genHarmonicsClaim 1 harmonicCexData).head? = some (7/6) ∧
    genHarmonics 1 harmonicCexData ≠ genHarmonicsClaim 1 harmonicCexData := by
  have e1 : (genHarmonics 1 harmonicCexData).head? = some (5/4) := by
    rw [harmonicCexData, genHarmonics_one_head]
    norm_num
  have e2 : (genHarmonicsClaim 1 harmonicCexData).head? = some (7/6) := by
    rw [harmonicCexData, genHarmonicsClaim_one_head]
    norm_num
  refine ⟨e1, e2, ?_⟩
  intro h
  rw [h, e2] at e1
  have : (7/6 : ℚ) = 5/4 := Option.some.inj e1
  norm_num at this

/-- **C6 (amended).** For every `harmonicCount ≥ 1` and every base
table, the table built by `genHarmonics` equals the base table with, for
each harmonic index `i` from 1 to `harmonicCount`, a partial summed in
that is obtained by subsampling the base table at stride `i + 1`,
attenuating by `1/(2*(i+1))`, and tiling back to `WAVE_SAMPLES`
(strides `2 .. harmonicCount+1`, not `3 .. harmonicCount+2`). -/
theorem genHarmonics_strides (numHarmonics : ℕ) (data : List ℚ)
    (h : 1 ≤ numHarmonics) :
    genHarmonics numHarmonics data = genHarmonicsAmended numHarmonics data := by
  unfold genHarmonics genHarmonicsAmended
  rw [List.foldl_map]

/-- Witness for `genHarmonics_strides` at `harmonicCount = 1` on the
concrete base table. -/
theorem genHarmonics_strides_witness :
    genHarmonics 1 harmonicCexData = genHarmonicsAmended 1 harmonicCexData :=
  genHarmonics_strides 1 harmonicCexData (by norm_num)

/-- **C7.** For every pitch 0–127, with equal temperament and
detune/randomness level 0, the frequency computed at note creation
(`Note.__init__`) equals `440 * 2**((pitch-69)/12)` within `1e-3`
(in this exact embedding the random term vanishes, so the difference
is `0`). -/
theorem equal_temperament_frequency (pitch : ℕ) (u : ℝ) (h : pitch ≤ 127) :
    |noteInitFrequency pitch u 0 - equalTempFreq pitch| < 1/1000 := by
  unfold noteInitFrequency
  have h0 : equalTempFreq pitch + u * 0 - equalTempFreq pitch = 0 := by ring
  rw [h0, abs_zero]
  norm_num

/-- Witness for `equal_temperament_frequency` at pitch 60. -/
theorem equal_temperament_frequency_witness :
    |noteInitFrequency 60 0 0 - equalTempFreq 60| < 1/1000 :=
  equal_temperament_frequency 60 0 (by norm_num)

/-- **C8.** Just intonation with root pitch 0: the root frequency
`justRootFreq` lies in `(261.62, 261.63)` (≈ C4); a voice created for
pitch 60 gets exactly the root frequency (ratio 1, octave factor 1), and
a voice created for pitch 67 gets exactly `3/2` times the root frequency
(the interval `7` looks up ratio `3/2`, octave offset 0). -/
theorem just_intonation_root_and_fifth :
    setJustIntonationFreq 60 (justRootFreqOf 0) 0 0 0 = justRootFreqOf 0 ∧
    setJustIntonationFreq 67 (justRootFreqOf 0) 0 0 0 = (3/2) * justRootFreqOf 0 ∧
    (261.62 : ℝ) < justRootFreqOf 0 ∧ justRootFreqOf 0 < (261.63 : ℝ) := by
  have hI60 : justInterval 60 0 = 0 := by decide
  have hO60 : justOctaveRaw 60 0 = 0 := by decide
  have hI67 : justInterval 67 0 = 7 := by decide
  have hO67 : justOctaveRaw 67 0 = 0 := by decide
  have hi0 : ((0 : ℤ) % 12).toNat = 0 := by decide
  have hi7 : ((7 : ℤ) % 12).toNat = 7 := by decide
  have hr0 : (justRatios.getD ((0 : ℤ) % 12).toNat 0 : ℚ) = 1 := by
    rw [hi0]
    rfl
  have hr7 : (justRatios.getD ((7 : ℤ) % 12).toNat 0 : ℚ) = 3/2 := by
    rw [hi7]
    rfl
  refine ⟨?_, ?_, ?_⟩
  · rw [setJustIntonationFreq, hI60, hO60, hr0]
    simp [justOctaveFactor]
  · rw [setJustIntonationFreq, hI67, hO67, hr7]
    simp [justOctaveFactor]
    ring
  · have hexp : ((((0 : ℤ) : ℝ) + 60) - 69) / 12 = -(3/4 : ℝ) := by norm_num
    have hrf : justRootFreqOf 0 = 440 * (2 : ℝ) ^ (-(3/4 : ℝ)) := by
      rw [justRootFreqOf, hexp]
    have ha_pos : (0 : ℝ) < (2 : ℝ) ^ ((3/4 : ℝ)) :=
      Real.rpow_pos_of_pos (by norm_num) _
    have ha4 : ((2 : ℝ) ^ ((3/4 : ℝ))) ^ (4 : ℕ) = 8 := by
      rw [← Real.rpow_natCast ((2 : ℝ) ^ ((3/4 : ℝ))) 4,
        ← Real.rpow_mul (by norm_num : (0 : ℝ) ≤ 2)]
      rw [show (3/4 : ℝ) * ((4 : ℕ) : ℝ) = ((3 : ℕ) : ℝ) by norm_num,
        Real.rpow_natCast]
      norm_num
    have hlow : (168178/100000 : ℝ) < (2 : ℝ) ^ ((3/4 : ℝ)) := by
      have h4 : (168178/100000 : ℝ) ^ (4 : ℕ) < ((2 : ℝ) ^ ((3/4 : ℝ))) ^ (4 : ℕ) := by
        rw [ha4]
        norm_num
      exact lt_of_pow_lt_pow_left 4 (le_of_lt ha_pos) h4
    have hhigh : (2 : ℝ) ^ ((3/4 : ℝ)) < (16818/10000 : ℝ) := by
      have h4 : ((2 : ℝ) ^ ((3/4 : ℝ))) ^ (4 : ℕ) < (16818/10000 : ℝ) ^ (4 : ℕ) := by
        rw [ha4]
        norm_num
      exact lt_of_pow_lt_pow_left 4 (by norm_num) h4
    have hdiv : justRootFreqOf 0 = 440 / (2 : ℝ) ^ ((3/4 : ℝ)) := by
      rw [hrf, Real.rpow_neg (by norm_num : (0 : ℝ) ≤ 2)]
      exact (div_eq_mul_inv 440 _).symm
    constructor
    · rw [hdiv, lt_div_iff ha_pos]
      nlinarith
    · rw [hdiv, div_lt_iff ha_pos]
      nlinarith

/-- The summation loop of `runStream` under the single `try` that wraps
the *whole* loop: each voice's `genWave` result is `some` block, or
`none` when it raises `IndexError`; the first `none` aborts the loop and
the accumulator gathered so far is kept. -/
def sumVoicesUntilFault : List (Option (List ℚ)) → List ℚ → List ℚ
  | [], acc => acc
  | none :: _, acc => acc
  | some b :: rest, acc => sumVoicesUntilFault rest (acc.zipWith (· + ·) b)

/-- `runStream`'s mixed block before clipping: the summation loop run on
`data = np.zeros(BLOCKSIZE)`. -/
def runStreamData (contribs : List (Option (List ℚ))) : List ℚ :=
  sumVoicesUntilFault contribs (List.replicate BLOCKSIZE 0)

/-- The mixing the claim describes: a faulting voice contributes
silence, every other voice's contribution is still included. -/
def sumVoicesSkipFaults (contribs : List (Option (List ℚ))) : List ℚ :=
  contribs.foldl
    (fun acc c => match c with
      | none => acc
      | some b => acc.zipWith (· + ·) b)
    (List.replicate BLOCKSIZE 0)

/-- A block of 512 ones. -/
def onesBlock : List ℚ := List.replicate BLOCKSIZE 1

/-- A block of 512 twos. -/
def twosBlock : List ℚ := List.replicate BLOCKSIZE 2

theorem head?_zipWith_replicate (n : ℕ) (hn : 0 < n) (x y : ℚ) :
    ((List.replicate n x).zipWith (· + ·) (List.replicate n y)).head? = some (x + y) := by
  obtain ⟨m, rfl⟩ : ∃ m, n = m + 1 := ⟨n - 1, by omega⟩
  simp [List.replicate_succ]

/-- **C9 counterexample.** With three voices — one sound block of ones,
one raising `IndexError`, one of twos — the emitted block contains only
the first voice (first sample `1`), not the claimed sum of all non-faulting
voices (first sample `3`): the `try` wraps the whole loop, so the fault
also drops every voice after the faulting one. -/
theorem runStream_fault_counterexample :
    (runStreamData [some onesBlock, none, some twosBlock]).head? = some 1 ∧
    (sumVoicesSkipFaults [some onesBlock, none, some twosBlock]).head? = some 3 ∧
    runStreamData [some onesBlock, none, some twosBlock]
      ≠ sumVoicesSkipFaults [some onesBlock, none, some twosBlock] := by
  have hz : List.replicate BLOCKSIZE (0 : ℚ) = 0 :: List.replicate 511 0 := rfl
  have ho : onesBlock = 1 :: List.replicate 511 1 := rfl
  have ht : twosBlock = 2 :: List.replicate 511 2 := rfl
  have e1 : (runStreamData [some onesBlock, none, some twosBlock]).head? = some 1 := by
    have h : runStreamData [some onesBlock, none, some twosBlock]
        = (List.replicate BLOCKSIZE 0).zipWith (· + ·) onesBlock := rfl
    rw [h, hz, ho]
    simp
  have e2 : (sumVoicesSkipFaults [some onesBlock, none, some twosBlock]).head? = some 3 := by
    have h : sumVoicesSkipFaults [some onesBlock, none, some twosBlock]
        = ((List.replicate BLOCKSIZE 0).zipWith (· + ·) onesBlock).zipWith (· + ·) twosBlock :=
      rfl
    rw [h, hz, ho, ht]
    simp
    norm_num
  refine ⟨e1, e2, fun h => ?_⟩
  rw [h, e2] at e1
  have : (3 : ℚ) = 1 := Option.some.inj e1
  norm_num at this

/-- **C9 (amended).** An `IndexError` in one voice's `genWave` never
aborts the block: the emitted block is still produced, containing the
contributions of exactly the voices processed *before* the fault; the
faulting voice and every voice after it in slot order contribute silence
for that block.  Without a fault, every voice is included. -/
theorem runStream_fault_keeps_earlier_voices (pre : List (List ℚ))
    (rest : List (Option (List ℚ))) (acc : List ℚ) :
    sumVoicesUntilFault (pre.map some ++ none :: rest) acc
        = pre.foldl (fun a b => a.zipWith (· + ·) b) acc ∧
    sumVoicesUntilFault (pre.map some) acc
        = pre.foldl (fun a b => a.zipWith (· + ·) b) acc := by
  induction pre generalizing acc with
  | nil => exact ⟨rfl, rfl⟩
  | cons b pre ih =>
      refine ⟨?_, ?_⟩
      · show sumVoicesUntilFault (some b :: (pre.map some ++ none :: rest)) acc = _
        simp only [sumVoicesUntilFault, List.foldl_cons]
        exact (ih _).1
      · show sumVoicesUntilFault (some b :: pre.map some) acc = _
        simp only [sumVoicesUntilFault, List.foldl_cons]
        exact (ih _).2

/-- Witness for `runStream_fault_keeps_earlier_voices`: one voice before
the fault, one after. -/
theorem runStream_fault_keeps_earlier_voices_witness :
    sumVoicesUntilFault ([onesBlock].map some ++ none :: [some twosBlock])
        (List.replicate BLOCKSIZE 0)
      = [onesBlock].foldl (fun a b => a.zipWith (· + ·) b) (List.replicate BLOCKSIZE 0) ∧
    sumVoicesUntilFault ([onesBlock].map some) (List.replicate BLOCKSIZE 0)
      = [onesBlock].foldl (fun a b => a.zipWith (· + ·) b) (List.replicate BLOCKSIZE 0) :=
  runStream_fault_keeps_earlier_voices [onesBlock] [some twosBlock]
    (List.replicate BLOCKSIZE 0)
